import Mathlib

/-!
Verification of the tile-unscrambling service in
`src/supabase/functions/unshuf/index.ts`.

The TypeScript source is shallowly embedded below.  JavaScript numbers are
modelled as `ℤ` where the program only ever holds integers, and as `ℚ` where
genuine (non-integer) division results can flow (`Group.rows`, PRNG draws,
`Math.floor`/`Math.ceil` of quotients).  The seeded PRNG `seedrandom(seed)` is
external to the repository; it is modelled as an opaque deterministic stream
`g : ℕ → ℚ`, where `g i` is the value of the `i`-th call to the generator, and
theorems that need it assume every draw lies in `[0, 1)`, which is the
documented output range of the generator.  Fallible JavaScript array reads
(`a[i]` being `undefined`) are modelled with `getD`/`Option`; cells of the
output array that are initialised to `null` are modelled as `Option` values.
-/

namespace Unshuf

/-- Embeds `baseRange` (index.ts lines 56-70): the `while (length--)` loop with
`fromRight = false` writes `start`, `start+step`, ... into slots `0, 1, ...`.
`len` is the already-computed length `Math.max(Math.ceil((end - start) / (step || 1)), 0)`. -/
def baseRangeGo (start step : ℤ) : ℕ → List ℤ
  | 0 => []
  | len + 1 => start :: baseRangeGo (start + step) step len

/-- Embeds `baseRange` (index.ts lines 56-70) for integer arguments. -/
def baseRange (start end_ step : ℤ) : List ℤ :=
  baseRangeGo start step (max ⌈((end_ - start : ℤ) : ℚ) / ((if step = 0 then 1 else step : ℤ) : ℚ)⌉ 0).toNat

/-- Embeds `createRange` (index.ts lines 44-54) at the only call shape used by the
program: two integer arguments (`end` present, `step` undefined).  `toNumber` is the
identity on numbers, and `start ? toNumber(start) : 0` is the identity on integer
`start` (it maps the falsy `0` to `0`). -/
def createRange (start end_ : ℤ) : List ℤ :=
  let start' : ℤ := if start = 0 then 0 else start
  let step : ℤ := if start' < end_ then 1 else -1
  baseRange start' end_ step

/-- One `Square` of the grid (index.ts lines 7-12).  `width`/`height` are optional
in the TS interface but are always assigned before any use, so they are plain fields. -/
structure Square where
  x : ℤ
  y : ℤ
  width : ℤ
  height : ℤ
deriving DecidableEq, Inhabited

/-- The per-group geometry record (index.ts lines 14-20).  `rows` is a JavaScript
division result and can be fractional, so it is a `ℚ`. -/
structure Group where
  slices : ℕ
  cols : ℕ
  rows : ℚ
  x : ℤ
  y : ℤ
deriving DecidableEq

/-- Embeds `getColsInGroup` (index.ts lines 84-96): return `1` for a one-element
group, otherwise the index of the first square whose `y` differs from the first
square's `y`, or the group length when every square shares that `y`.
(The loop variable `cols` holds `group[0].y` from the first iteration on, so the
comparison at index `0` never fires.) -/
def getColsInGroup (group : List Square) : ℕ :=
  if group.length = 1 then 1
  else group.findIdx (fun sq => sq.y != (group.getD 0 default).y)

/-- Embeds `getGroup` (index.ts lines 72-82).  `group[0]` on an empty list would be
`undefined` in JS; the embedding uses `getD 0 default`, and every call site passes a
non-empty group.  `rows = group.length / result.cols` is JavaScript float division,
hence `ℚ`. -/
def getGroup (group : List Square) : Group :=
  { slices := group.length
    cols := getColsInGroup group
    rows := (group.length : ℚ) / (getColsInGroup group : ℚ)
    x := (group.getD 0 default).x
    y := (group.getD 0 default).y }

/-- Embeds the `for (let i = 0; i < arrayLength; i++)` loop of `unShuffle`
(index.ts lines 111-117).  `g` is the PRNG stream, `i` the loop counter (also the
index of the next draw, since each iteration makes exactly one draw), `pool` is
`indexArray`, `shuffled` is `shuffledArray`.  Returns the final `shuffledArray`
together with the number of draws consumed.  `fuel` is the number of remaining
iterations (`arrayLength - i`). -/
def unShuffleGo (g : ℕ → ℚ) (array : List ℤ) :
    ℕ → ℕ → List ℕ → List (Option ℤ) → List (Option ℤ) × ℕ
  | 0, i, _pool, shuffled => (shuffled, i)
  | fuel + 1, i, pool, shuffled =>
    let randomIndex : ℕ := (⌊g i * ((pool.length : ℚ) - 1 - 0 + 1)⌋ + 0).toNat
    let index : ℕ := pool.getD randomIndex 0
    unShuffleGo g array fuel (i + 1) (pool.eraseIdx randomIndex)
      (shuffled.set index (some (array.getD i 0)))

/-- Embeds `unShuffle` (index.ts lines 98-119) on the success path: the input is a
list, so the `!Array.isArray(array)` null-guard never fires at the embedded call
sites.  `shuffledArray` starts as `arrayLength` copies of `null` and `indexArray`
as `[0, ..., arrayLength - 1]`, built by the first loop. -/
def unShuffle (g : ℕ → ℚ) (array : List ℤ) : List (Option ℤ) :=
  (unShuffleGo g array array.length 0 (List.range array.length)
    (List.replicate array.length none)).1

/-- Number of PRNG draws `unShuffle` consumes. -/
def unShuffleDrawCount (g : ℕ → ℚ) (array : List ℤ) : ℕ :=
  (unShuffleGo g array array.length 0 (List.range array.length)
    (List.replicate array.length none)).2

/-- `permute(N, seed)` of the specification: `unShuffle(createRange(0, N), seed)`
(index.ts line 144 with a group of size `N`). -/
def permute (g : ℕ → ℚ) (N : ℕ) : List (Option ℤ) :=
  unShuffle g (createRange 0 (N : ℤ))

/-- Number of PRNG draws `permute(N, seed)` consumes. -/
def permuteDrawCount (g : ℕ → ℚ) (N : ℕ) : ℕ :=
  unShuffleDrawCount g (createRange 0 (N : ℤ))

/-- Modelled from the spec (§4.1 Algorithm), for the refinement claim about
`permute`: "initialize `pool = [0, 1, ..., N-1]`.  For `source` from `0` to `N-1`:
draw one value `r` from the PRNG stream; compute `pick = floor(r * remaining_length)`
where `remaining_length` is the current pool size; let `dest = pool[pick]`; remove
the element at position `pick` from `pool`; set `result[dest] = source`.  Return
`result`."  Cells of `result` not yet assigned are `none`. -/
def specPermuteGo (g : ℕ → ℚ) : ℕ → ℕ → List ℕ → List (Option ℤ) → List (Option ℤ)
  | 0, _source, _pool, result => result
  | fuel + 1, source, pool, result =>
    let r := g source
    let pick : ℕ := (⌊r * (pool.length : ℚ)⌋).toNat
    let dest : ℕ := pool.getD pick 0
    specPermuteGo g fuel (source + 1) (pool.eraseIdx pick) (result.set dest (some (source : ℤ)))

/-- Modelled from the spec (§4.1): the full spec-side algorithm for `permute(N, seed)`. -/
def specPermute (g : ℕ → ℚ) (N : ℕ) : List (Option ℤ) :=
  specPermuteGo g N 0 (List.range N) (List.replicate N none)

/-! ### Basic facts about `createRange` -/

lemma length_baseRangeGo (start step : ℤ) (n : ℕ) : (baseRangeGo start step n).length = n := by
  induction n generalizing start with
  | zero => rfl
  | succ n ih => simp [baseRangeGo, ih]

lemma getD_baseRangeGo (start step : ℤ) (n j : ℕ) (hj : j < n) :
    (baseRangeGo start step n).getD j 0 = start + j * step := by
  induction n generalizing start j with
  | zero => omega
  | succ n ih =>
    cases j with
    | zero => simp [baseRangeGo]
    | succ j =>
      have := ih (start + step) j (by omega)
      simp only [baseRangeGo, List.getD_cons_succ, this]
      push_cast
      ring

lemma createRange_zero_natCast (N : ℕ) : createRange 0 (N : ℤ) = baseRangeGo 0 1 N := by
  cases N with
  | zero =>
    show baseRange 0 0 (if (0 : ℤ) < ((0 : ℕ) : ℤ) then 1 else -1) = _
    rw [if_neg (by norm_num)]
    unfold baseRange
    norm_num
    rfl
  | succ N =>
    show baseRange 0 (N + 1 : ℕ) (if (0 : ℤ) < ((N : ℤ) + 1) then 1 else -1) = _
    rw [if_pos (by positivity)]
    unfold baseRange
    norm_num
    rw [max_eq_left (by positivity : (0 : ℤ) ≤ (N : ℤ) + 1)]
    congr 1

lemma length_createRange (N : ℕ) : (createRange 0 (N : ℤ)).length = N := by
  rw [createRange_zero_natCast, length_baseRangeGo]

lemma getD_createRange (N j : ℕ) (hj : j < N) : (createRange 0 (N : ℤ)).getD j 0 = (j : ℤ) := by
  rw [createRange_zero_natCast, getD_baseRangeGo _ _ _ _ hj]
  ring

/-! ### C1: `permute` follows the spec's draw-and-remove algorithm -/

lemma unShuffleGo_fst_eq_specPermuteGo (g : ℕ → ℚ) (array : List ℤ) :
    ∀ fuel i pool result,
      (∀ j, j < fuel → array.getD (i + j) 0 = ((i + j : ℕ) : ℤ)) →
      (unShuffleGo g array fuel i pool result).1 = specPermuteGo g fuel i pool result := by
  intro fuel
  induction fuel with
  | zero => intro i pool result _; rfl
  | succ fuel ih =>
    intro i pool result harr
    have hlen : ((pool.length : ℚ) - 1 - 0 + 1) = (pool.length : ℚ) := by ring
    have hidx : (⌊g i * ((pool.length : ℚ) - 1 - 0 + 1)⌋ + 0).toNat =
        (⌊g i * (pool.length : ℚ)⌋).toNat := by rw [hlen, add_zero]
    have hi : array.getD i 0 = ((i : ℕ) : ℤ) := by
      have := harr 0 (Nat.succ_pos fuel)
      simpa using this
    simp only [unShuffleGo, specPermuteGo, hidx, hi]
    exact ih (i + 1) _ _ (fun j hj => by
      have := harr (j + 1) (by omega)
      rw [show i + 1 + j = i + (j + 1) by omega]
      exact this)

/-- C1: For every non-negative integer `N` and every seed (modelled as its PRNG
draw stream `g` of values in `[0,1)`), `permute(N, seed)` — `unShuffle` applied to
`createRange(0, N)` — follows exactly the spec's algorithm: start from
`pool = [0, ..., N-1]`; for each `source` from `0` to `N-1`, draw `r`, compute
`pick = floor(r * pool.length)`, set `dest = pool[pick]`, remove position `pick`
from the pool, and set `result[dest] = source`; return `result`. -/
theorem permute_follows_spec_algorithm (g : ℕ → ℚ) (N : ℕ)
    (_hg : ∀ j, 0 ≤ g j ∧ g j < 1) : permute g N = specPermute g N := by
  show (unShuffleGo g (createRange 0 (N : ℤ)) (createRange 0 (N : ℤ)).length 0
      (List.range (createRange 0 (N : ℤ)).length)
      (List.replicate (createRange 0 (N : ℤ)).length none)).1 = _
  rw [length_createRange]
  exact unShuffleGo_fst_eq_specPermuteGo g _ N 0 _ _
    (fun j hj => by simpa using getD_createRange N j hj)

/-- A concrete PRNG stream used by the witnesses: every draw is `1/2`. -/
def gHalf : ℕ → ℚ := fun _ => 1 / 2

lemma gHalf_valid : ∀ j, 0 ≤ gHalf j ∧ gHalf j < 1 := by
  intro j
  constructor <;> norm_num [gHalf]

theorem permute_follows_spec_algorithm_witness :
    (∀ j, 0 ≤ gHalf j ∧ gHalf j < 1) ∧ permute gHalf 3 = specPermute gHalf 3 :=
  ⟨gHalf_valid, permute_follows_spec_algorithm gHalf 3 gHalf_valid⟩

/-! ### C2: `permute` is a bijection on `[0, N)` -/

lemma floor_mul_natCast_toNat_lt {r : ℚ} {len : ℕ} (h0 : 0 ≤ r) (h1 : r < 1) (hl : 0 < len) :
    (⌊r * (len : ℚ)⌋).toNat < len := by
  rw [Int.toNat_lt (Int.floor_nonneg.mpr (by positivity))]
  rw [Int.floor_lt]
  calc r * (len : ℚ) < 1 * (len : ℚ) := by
        exact mul_lt_mul_of_pos_right h1 (by exact_mod_cast hl)
  _ = ((len : ℤ) : ℚ) := by push_cast; ring

lemma getD_eq_getElem {α : Type} [Inhabited α] (l : List α) (n : ℕ) (d : α) (h : n < l.length) :
    l.getD n d = l[n] := by
  rw [List.getD_eq_getElem?_getD, List.getElem?_eq_getElem h]
  rfl

lemma not_mem_eraseIdx_self {pool : List ℕ} {n : ℕ} (hnd : pool.Nodup) (h : n < pool.length) :
    pool[n] ∉ pool.eraseIdx n := by
  have hdecomp : pool = pool.take n ++ pool[n] :: pool.drop (n + 1) := by
    conv_lhs => rw [← List.take_append_drop n pool]
    rw [List.getElem_cons_drop pool n h]
  rw [List.eraseIdx_eq_take_drop_succ]
  rw [hdecomp] at hnd
  rw [List.nodup_append] at hnd
  obtain ⟨_, hcons, hdisj⟩ := hnd
  rw [List.nodup_cons] at hcons
  intro hmem
  rcases List.mem_append.mp hmem with htake | hdrop
  · exact hdisj htake (List.mem_cons_self _ _)
  · exact hcons.1 hdrop

lemma mem_eraseIdx_of_ne {pool : List ℕ} {x n : ℕ} (h : n < pool.length)
    (hx : x ∈ pool) (hne : x ≠ pool[n]) : x ∈ pool.eraseIdx n := by
  have hdecomp : pool = pool.take n ++ pool[n] :: pool.drop (n + 1) := by
    conv_lhs => rw [← List.take_append_drop n pool]
    rw [List.getElem_cons_drop pool n h]
  rw [List.eraseIdx_eq_take_drop_succ]
  rw [hdecomp] at hx
  rcases List.mem_append.mp hx with htake | hcons
  · exact List.mem_append.mpr (Or.inl htake)
  · rcases List.mem_cons.mp hcons with heq | hdrop
    · exact absurd heq hne
    · exact List.mem_append.mpr (Or.inr hdrop)

lemma count_set_some_of_none (l : List (Option ℤ)) (n : ℕ) (w v : ℤ)
    (hn : l[n]? = some none) :
    (l.set n (some w)).count (some v) = l.count (some v) + if w = v then 1 else 0 := by
  have hlt : n < l.length := by
    by_contra hcon
    rw [List.getElem?_eq_none (by omega)] at hn
    exact Option.noConfusion hn
  have hget : l[n] = none := by
    rw [List.getElem?_eq_getElem hlt] at hn
    exact Option.some_inj.mp hn
  have hdecomp : l = l.take n ++ l[n] :: l.drop (n + 1) := by
    conv_lhs => rw [← List.take_append_drop n l]
    rw [List.getElem_cons_drop l n hlt]
  rw [List.set_eq_take_append_cons_drop, if_pos hlt]
  conv_rhs => rw [hdecomp]
  rw [hget]
  rw [List.count_append, List.count_append, List.count_cons, List.count_cons]
  by_cases h : w = v
  · subst h
    simp
    omega
  · simp [h, Ne.symm h]

/-- The structural invariant of the `unShuffle` main loop: positions outside the
pool are untouched, positions in the pool end up holding values drawn from the
still-unconsumed segment of `array`, and the multiset of `some`-values grows by
exactly the written segment. -/
lemma unShuffleGo_invariant (g : ℕ → ℚ) (array : List ℤ)
    (hg : ∀ j, 0 ≤ g j ∧ g j < 1) :
    ∀ (fuel i : ℕ) (pool : List ℕ) (shuffled : List (Option ℤ)),
      pool.Nodup →
      pool.length = fuel →
      (∀ x ∈ pool, x < shuffled.length) →
      (∀ x ∈ pool, shuffled[x]? = some none) →
      ((unShuffleGo g array fuel i pool shuffled).1.length = shuffled.length ∧
       (∀ d : ℕ, d ∉ pool → (unShuffleGo g array fuel i pool shuffled).1[d]? = shuffled[d]?) ∧
       (∀ x ∈ pool, ∃ j, j < fuel ∧
          (unShuffleGo g array fuel i pool shuffled).1[x]? =
            some (some (array.getD (i + j) 0))) ∧
       (∀ v : ℤ, (unShuffleGo g array fuel i pool shuffled).1.count (some v) =
          shuffled.count (some v) +
            ((List.range fuel).map (fun j => array.getD (i + j) 0)).count v)) := by
  intro fuel
  induction fuel with
  | zero =>
    intro i pool shuffled _ hlen0 _ _
    have hpool : pool = [] := List.length_eq_zero.mp hlen0
    subst hpool
    have hres : (unShuffleGo g array 0 i [] shuffled).1 = shuffled := rfl
    refine ⟨by rw [hres], fun d _ => by rw [hres],
      fun x hx => absurd hx (List.not_mem_nil x), fun v => ?_⟩
    rw [hres]
    simp
  | succ fuel ih =>
    intro i pool shuffled hnd hlen hbound hnone
    have hpoolpos : 0 < pool.length := by omega
    obtain ⟨hr0, hr1⟩ := hg i
    have hsimp : (⌊g i * ((pool.length : ℚ) - 1 - 0 + 1)⌋ + 0).toNat =
        (⌊g i * (pool.length : ℚ)⌋).toNat := by
      rw [add_zero]
      congr 2
      ring
    have hri : (⌊g i * ((pool.length : ℚ) - 1 - 0 + 1)⌋ + 0).toNat < pool.length := by
      rw [hsimp]
      exact floor_mul_natCast_toNat_lt hr0 hr1 hpoolpos
    set randomIndex : ℕ := (⌊g i * ((pool.length : ℚ) - 1 - 0 + 1)⌋ + 0).toNat with hriDef
    have hstep : unShuffleGo g array (fuel + 1) i pool shuffled =
        unShuffleGo g array fuel (i + 1) (pool.eraseIdx randomIndex)
          (shuffled.set (pool.getD randomIndex 0) (some (array.getD i 0))) := rfl
    have hgetD : pool.getD randomIndex 0 = pool[randomIndex] :=
      getD_eq_getElem pool randomIndex 0 hri
    have hindex_mem : pool.getD randomIndex 0 ∈ pool := by
      rw [hgetD]
      exact List.getElem_mem hri
    have hindex_lt : pool.getD randomIndex 0 < shuffled.length := hbound _ hindex_mem
    have hindex_none : shuffled[pool.getD randomIndex 0]? = some none := hnone _ hindex_mem
    have hnd' : (pool.eraseIdx randomIndex).Nodup :=
      (List.eraseIdx_sublist pool randomIndex).nodup hnd
    have hlen' : (pool.eraseIdx randomIndex).length = fuel := by
      rw [List.length_eraseIdx, if_pos hri]
      omega
    have hsubset : ∀ x ∈ pool.eraseIdx randomIndex, x ∈ pool :=
      fun x hx => (List.eraseIdx_sublist pool randomIndex).subset hx
    have hindex_notmem : pool.getD randomIndex 0 ∉ pool.eraseIdx randomIndex := by
      rw [hgetD]
      exact not_mem_eraseIdx_self hnd hri
    have hbound' : ∀ x ∈ pool.eraseIdx randomIndex,
        x < (shuffled.set (pool.getD randomIndex 0) (some (array.getD i 0))).length := by
      intro x hx
      rw [List.length_set]
      exact hbound x (hsubset x hx)
    have hnone' : ∀ x ∈ pool.eraseIdx randomIndex,
        (shuffled.set (pool.getD randomIndex 0) (some (array.getD i 0)))[x]? = some none := by
      intro x hx
      rw [List.getElem?_set]
      rw [if_neg (by
        intro heq
        exact hindex_notmem (heq ▸ hx))]
      exact hnone x (hsubset x hx)
    obtain ⟨IH1, IH2, IH3, IH4⟩ := ih (i + 1) (pool.eraseIdx randomIndex)
      (shuffled.set (pool.getD randomIndex 0) (some (array.getD i 0))) hnd' hlen' hbound' hnone'
    rw [hstep]
    refine ⟨?_, ?_, ?_, ?_⟩
    · rw [IH1, List.length_set]
    · intro d hd
      have hd' : d ∉ pool.eraseIdx randomIndex := fun hc => hd (hsubset d hc)
      rw [IH2 d hd', List.getElem?_set, if_neg (by
        intro heq
        exact hd (heq ▸ hindex_mem))]
    · intro x hx
      by_cases hcase : x = pool.getD randomIndex 0
      · refine ⟨0, Nat.succ_pos fuel, ?_⟩
        rw [hcase]
        rw [IH2 _ hindex_notmem, List.getElem?_set, if_pos rfl, if_pos hindex_lt]
        rw [Nat.add_zero]
      · have hx' : x ∈ pool.eraseIdx randomIndex := by
          apply mem_eraseIdx_of_ne hri hx
          rw [← hgetD]
          exact hcase
        obtain ⟨j, hj, hval⟩ := IH3 x hx'
        refine ⟨j + 1, by omega, ?_⟩
        rw [show i + (j + 1) = i + 1 + j by omega]
        exact hval
    · intro v
      have hcount' := IH4 v
      have hcset : (shuffled.set (pool.getD randomIndex 0) (some (array.getD i 0))).count (some v) =
          shuffled.count (some v) + if array.getD i 0 = v then 1 else 0 :=
        count_set_some_of_none shuffled _ (array.getD i 0) v hindex_none
      have hrange : ((List.range (fuel + 1)).map (fun j => array.getD (i + j) 0)).count v =
          ((List.range fuel).map (fun j => array.getD (i + 1 + j) 0)).count v +
            if array.getD i 0 = v then 1 else 0 := by
        rw [List.range_succ_eq_map, List.map_cons, List.map_map, List.count_cons]
        have hfun : ((fun j => array.getD (i + j) 0) ∘ Nat.succ) =
            (fun j => array.getD (i + 1 + j) 0) := by
          funext j
          simp only [Function.comp_apply]
          congr 1
          omega
        rw [hfun]
        simp only [Nat.add_zero, beq_iff_eq]
      rw [hcount', hcset, hrange]
      omega

lemma count_range_nat (k n : ℕ) : (List.range n).count k = if k < n then 1 else 0 := by
  induction n with
  | zero => simp
  | succ n ih =>
    rw [List.range_succ, List.count_append, ih]
    simp only [List.count_cons, List.count_nil, beq_iff_eq]
    split_ifs <;> omega

/-- The initial state of the `unShuffle` loop satisfies the loop invariant, so the
final array's `some`-counts are exactly the counts of the input segment. -/
lemma unShuffle_count (g : ℕ → ℚ) (array : List ℤ) (hg : ∀ j, 0 ≤ g j ∧ g j < 1) (v : ℤ) :
    (unShuffle g array).count (some v) =
      ((List.range array.length).map (fun j => array.getD j 0)).count v := by
  obtain ⟨_, _, _, h4⟩ := unShuffleGo_invariant g array hg array.length 0
    (List.range array.length) (List.replicate array.length none)
    (List.nodup_range array.length) (List.length_range array.length)
    (fun x hx => by
      rw [List.length_replicate]
      exact List.mem_range.mp hx)
    (fun x hx => by
      rw [List.getElem?_replicate, if_pos (List.mem_range.mp hx)])
  have hzero : (List.replicate array.length (none : Option ℤ)).count (some v) = 0 := by
    rw [List.count_replicate]
    simp
  have hfun : (fun j => array.getD (0 + j) 0) = (fun j => array.getD j 0) := by
    funext j
    rw [Nat.zero_add]
  rw [unShuffle]
  rw [h4 v, hzero, hfun, Nat.zero_add]

lemma unShuffle_length (g : ℕ → ℚ) (array : List ℤ) (hg : ∀ j, 0 ≤ g j ∧ g j < 1) :
    (unShuffle g array).length = array.length := by
  obtain ⟨h1, _, _, _⟩ := unShuffleGo_invariant g array hg array.length 0
    (List.range array.length) (List.replicate array.length none)
    (List.nodup_range array.length) (List.length_range array.length)
    (fun x hx => by
      rw [List.length_replicate]
      exact List.mem_range.mp hx)
    (fun x hx => by
      rw [List.getElem?_replicate, if_pos (List.mem_range.mp hx)])
  rw [unShuffle, h1, List.length_replicate]

lemma permute_count (g : ℕ → ℚ) (N : ℕ) (hg : ∀ j, 0 ≤ g j ∧ g j < 1) (v : ℤ) :
    (permute g N).count (some v) = ((List.range N).map (fun (j : ℕ) => (j : ℤ))).count v := by
  rw [permute, unShuffle_count g _ hg v, length_createRange]
  congr 1
  apply List.map_congr_left
  intro j hj
  exact getD_createRange N j (List.mem_range.mp hj)

/-- C2: For every `N` and every seed (PRNG stream of values in `[0,1)`),
`permute(N, seed)` is a permutation of `[0, N)`: the result has length `N`, every
integer in `[0, N)` appears exactly once, and nothing outside `[0, N)` appears. -/
theorem permute_is_bijection (g : ℕ → ℚ) (N : ℕ) (hg : ∀ j, 0 ≤ g j ∧ g j < 1) :
    (permute g N).length = N ∧
    (∀ v : ℤ, 0 ≤ v → v < (N : ℤ) → (permute g N).count (some v) = 1) ∧
    (∀ v : ℤ, v < 0 ∨ (N : ℤ) ≤ v → (permute g N).count (some v) = 0) := by
  refine ⟨?_, ?_, ?_⟩
  · rw [permute, unShuffle_length g _ hg, length_createRange]
  · intro v hv0 hvN
    rw [permute_count g N hg v]
    have hv : v = ((v.toNat : ℕ) : ℤ) := by omega
    rw [hv, List.count_map_of_injective _ _ (fun a b h => by exact_mod_cast h), count_range_nat]
    rw [if_pos (by omega)]
  · intro v hv
    rw [permute_count g N hg v]
    rw [List.count_eq_zero]
    intro hmem
    obtain ⟨j, hj, hjv⟩ := List.mem_map.mp hmem
    have := List.mem_range.mp hj
    omega

theorem permute_is_bijection_witness :
    (∀ j, 0 ≤ gHalf j ∧ gHalf j < 1) ∧
      ((permute gHalf 4).length = 4 ∧
       (∀ v : ℤ, 0 ≤ v → v < (4 : ℤ) → (permute gHalf 4).count (some v) = 1) ∧
       (∀ v : ℤ, v < 0 ∨ ((4 : ℕ) : ℤ) ≤ v → (permute gHalf 4).count (some v) = 0)) :=
  ⟨gHalf_valid, permute_is_bijection gHalf 4 gHalf_valid⟩

/-! ### C9: edge cases `N = 0` and `N = 1` -/

lemma unShuffleGo_singleton (g : ℕ → ℚ) (hg : 0 ≤ g 0 ∧ g 0 < 1) :
    unShuffleGo g [0] 1 0 [0] [none] = ([some 0], 1) := by
  have hri : (⌊g 0 * ((([0] : List ℕ).length : ℚ) - 1 - 0 + 1)⌋ + 0).toNat = 0 := by
    have hf : ⌊g 0⌋ = 0 := Int.floor_eq_zero_iff.mpr ⟨hg.1, hg.2⟩
    norm_num [hf]
  show (unShuffleGo g [0] 0 1
    ([0].eraseIdx ((⌊g 0 * ((([0] : List ℕ).length : ℚ) - 1 - 0 + 1)⌋ + 0).toNat))
    (([none].set ([0].getD ((⌊g 0 * ((([0] : List ℕ).length : ℚ) - 1 - 0 + 1)⌋ + 0).toNat) 0)
      (some ([0].getD 0 0))))) = ([some 0], 1)
  rw [hri]
  rfl

/-- C9: For every seed (PRNG stream with first draw in `[0,1)`), `permute(0, seed)`
returns the empty sequence, and `permute(1, seed)` returns `[0]` while consuming
exactly one PRNG draw. -/
theorem permute_edge_cases (g : ℕ → ℚ) (hg : 0 ≤ g 0 ∧ g 0 < 1) :
    permute g 0 = [] ∧ permute g 1 = [some (0 : ℤ)] ∧ permuteDrawCount g 1 = 1 := by
  refine ⟨?_, ?_, ?_⟩
  · rw [permute, createRange_zero_natCast]
    rfl
  · rw [permute, createRange_zero_natCast]
    show (unShuffleGo g [0] 1 0 [0] [none]).1 = [some 0]
    rw [unShuffleGo_singleton g hg]
  · rw [permuteDrawCount, unShuffleDrawCount, createRange_zero_natCast]
    show (unShuffleGo g [0] 1 0 [0] [none]).2 = 1
    rw [unShuffleGo_singleton g hg]

theorem permute_edge_cases_witness :
    (0 ≤ gHalf 0 ∧ gHalf 0 < 1) ∧
      (permute gHalf 0 = [] ∧ permute gHalf 1 = [some (0 : ℤ)] ∧ permuteDrawCount gHalf 1 = 1) :=
  ⟨⟨by norm_num [gHalf], by norm_num [gHalf]⟩,
    permute_edge_cases gHalf ⟨by norm_num [gHalf], by norm_num [gHalf]⟩⟩

/-! ### The grid partitioner of `imgReverser` (index.ts lines 121-142) -/

/-- `Math.ceil(imageWidth / squareSideLength)` (index.ts lines 127-128): the number
of squares per row.  JavaScript float division is modelled as exact rational
division followed by `⌈⌉` (exact for the integer ranges a real image can have). -/
def squaresPerRow (W S : ℤ) : ℤ := ⌈(W : ℚ) / (S : ℚ)⌉

/-- `totalSquares` (index.ts line 127). -/
def totalSquares (W H S : ℤ) : ℤ := ⌈(W : ℚ) / (S : ℚ)⌉ * ⌈(H : ℚ) / (S : ℚ)⌉

/-- The square built in iteration `i` of the partition loop (index.ts lines 130-137). -/
def tileAt (W H S : ℤ) (i : ℕ) : Square :=
  let row : ℤ := ⌊(i : ℚ) / (squaresPerRow W S : ℚ)⌋
  let x : ℤ := ((i : ℤ) - row * squaresPerRow W S) * S
  let y : ℤ := row * S
  { x := x
    y := y
    width := S - (if x + S ≤ W then 0 else x + S - W)
    height := S - (if y + S ≤ H then 0 else y + S - H) }

/-- The full tile list in visitation order: the loop `for (let i = 0; i < totalSquares; i++)`
(index.ts line 130). -/
def tileList (W H S : ℤ) : List Square :=
  (List.range (totalSquares W H S).toNat).map (tileAt W H S)

/-- One step of the bucketing of squares into `squareGroups` (index.ts lines 138-141):
a missing key is appended at the end (JavaScript object keys of the form
`width + '-' + height` contain `'-'`, so they keep insertion order), and the square
is pushed onto its bucket.  The string key `width + '-' + height` is modelled as the
pair `(width, height)`, which the string determines uniquely for the values that occur. -/
def insertTile (groups : List ((ℤ × ℤ) × List Square)) (sq : Square) :
    List ((ℤ × ℤ) × List Square) :=
  match groups with
  | [] => [((sq.width, sq.height), [sq])]
  | (k, bucket) :: rest =>
    if k = (sq.width, sq.height) then (k, bucket ++ [sq]) :: rest
    else (k, bucket) :: insertTile rest sq

/-- The `squareGroups` object after the partition loop (index.ts lines 129-142). -/
def squareGroups (W H S : ℤ) : List ((ℤ × ℤ) × List Square) :=
  (tileList W H S).foldl insertTile []

/-- The bucket stored under key `(w, h)` (empty if the key is absent). -/
def bucketOf (W H S w h : ℤ) : List Square :=
  (((squareGroups W H S).lookup (w, h)).getD [])

/-- The key of a square, as used by the bucketing. -/
def tileKey (sq : Square) : ℤ × ℤ := (sq.width, sq.height)

/-! ### The per-group reassembly loop of `imgReverser` (index.ts lines 143-162) -/

/-- One `context.drawImage(img, sx, sy, sW, sH, dx, dy, dW, dH)` call
(index.ts lines 151-160). -/
structure CopyOp where
  sx : ℤ
  sy : ℤ
  sW : ℤ
  sH : ℤ
  dx : ℤ
  dy : ℤ
  dW : ℤ
  dH : ℤ
deriving DecidableEq, Inhabited

/-- The sequence of `drawImage` calls issued for one group (index.ts lines 144-161):
`deshuffled = unShuffle(createRange(0, group.length), seed)`, `group = getGroup(...)`,
then for each `[index, square]` of the group's entries the source offset is computed
from `deshuffled[index]` and the group geometry. -/
def copyOpsForGroup (g : ℕ → ℚ) (grp : List Square) : List CopyOp :=
  let deshuffled := unShuffle g (createRange 0 (grp.length : ℤ))
  let group := getGroup grp
  grp.enum.map (fun p =>
    let square := p.2
    let deltaX0 : ℤ := ((deshuffled.getD p.1 none).getD 0)
    let deltaY0 : ℤ := ⌊(deltaX0 : ℚ) / (group.cols : ℚ)⌋
    let deltaX1 : ℤ := (deltaX0 - deltaY0 * (group.cols : ℤ)) * square.width
    let deltaY1 : ℤ := deltaY0 * square.height
    { sx := group.x + deltaX1
      sy := group.y + deltaY1
      sW := square.width
      sH := square.height
      dx := square.x
      dy := square.y
      dW := square.width
      dH := square.height })

/-! ### C7 / C8: absence of the error handling the spec prescribes -/

/-- C7 failing evaluation: `imgReverser` performs no validation of the tile
side length: invoked with `squareSideLength = -1` on a 1×1 image it proceeds
straight into partitioning and builds a degenerate grid containing a tile of
width `-1` and height `-1`.  No `ConfigurationError` (or any other error path)
exists anywhere in the code. -/
theorem partitioner_accepts_nonpositive_tile_size :
    tileList 1 1 (-1) = [{ x := 0, y := 0, width := -1, height := -1 }] := by
  have hm1 : ⌈(-1 : ℚ)⌉ = -1 := by
    rw [show (-1 : ℚ) = ((-1 : ℤ) : ℚ) by norm_num]
    exact Int.ceil_intCast _
  norm_num [tileList, totalSquares, tileAt, squaresPerRow, List.range, hm1]
  rw [show List.range.loop 1 [] = [0] from rfl]
  norm_num [tileAt, squaresPerRow, hm1]

/-- C8 failing evaluation: `getGroup` performs no divisibility check: on a
group of 3 squares whose computed column count is 2 it silently returns the
fractional row count `3/2` instead of surfacing any `GeometryInvariantViolation`
error (no error path exists in the code). -/
theorem getGroup_returns_fractional_rows :
    getGroup [{ x := 0, y := 0, width := 1, height := 1 },
              { x := 1, y := 0, width := 1, height := 1 },
              { x := 0, y := 1, width := 1, height := 1 }] =
      { slices := 3, cols := 2, rows := 3 / 2, x := 0, y := 0 } := by
  rfl

/-! ### C10: the HTTP handler (index.ts lines 167-202) -/

/-- A parsed JSON value, as delivered by `req.json()`. -/
inductive JsonValue where
  | null : JsonValue
  | bool (b : Bool) : JsonValue
  | num (q : ℚ) : JsonValue
  | str (s : String) : JsonValue
  | arr (elems : List JsonValue) : JsonValue
  | obj (fields : List (String × JsonValue)) : JsonValue

/-- The value of property access `body.imgURL` on a non-`null` body: `none` models
JavaScript `undefined` (non-object bodies, or objects without the field).  On the
JSON body `null`, property access does not produce a value at all — it throws a
`TypeError` — and that case is modelled separately in `handleBody`; `getField` is
also used on its own to state what "the `imgURL` field" of a body is. -/
def getField (v : JsonValue) (key : String) : Option JsonValue :=
  match v with
  | JsonValue.obj fields => fields.lookup key
  | _ => none

/-- Whether the parsed body is the JSON value `null` — the one `req.json()` result
on which line 185's `body.imgURL` throws a `TypeError` (property access on any
other JSON value, including numbers, strings and booleans, yields a value). -/
def isNullValue : JsonValue → Bool
  | JsonValue.null => true
  | _ => false

/-- JavaScript truthiness of `body.imgURL` as used by `if (!imgURL)`:
`undefined`, `null`, `false`, `0` and `""` are falsy; everything else is truthy. -/
def truthyOpt (v : Option JsonValue) : Bool :=
  match v with
  | none => false
  | some JsonValue.null => false
  | some (JsonValue.bool b) => b
  | some (JsonValue.num q) => q != 0
  | some (JsonValue.str s) => s != ""
  | some (JsonValue.arr _) => true
  | some (JsonValue.obj _) => true

/-- An HTTP response as constructed by the handler: status, body text (or the
image bytes / `null` returned by `imgReverser`), and content type header. -/
structure HttpResponse where
  status : ℕ
  body : Option String
  contentType : Option String
deriving DecidableEq

def postMethod : String := "POST"

def imgURLKey : String := "imgURL"

def seedStay : String := "stay"

def pngContentType : String := "image/png"

def msgOnlyPost : String := "Bad request: Only POST method is allowed"

def msgBadJson : String := "Bad request: request body is not valid JSON"

def msgMissingImgURL : String := "Bad request: missing imgURL in request body"

/-- `Deno.serve`'s fallback response when the handler throws an uncaught
exception (here the `TypeError` from `null.imgURL`): a plain
`500 Internal Server Error` with no image content type. -/
def internalServerError : HttpResponse :=
  { status := 500, body := none, contentType := none }

/-- Embeds the `Deno.serve` handler (index.ts lines 167-202).  `rev` abstracts
`imgReverser` (its result depends only on its three arguments); `body = none`
models a request whose body failed to parse as JSON.  A body that parsed to JSON
`null` makes line 185's `body.imgURL` throw a `TypeError`, which escapes the
handler and is answered by `Deno.serve` with a 500 response.  Otherwise the
success branch calls `imgReverser(imgURL, 200, 'stay')` and returns its result
with an `image/png` content type and default status 200. -/
def handleBody (rev : JsonValue → ℤ → String → Option String) :
    Option JsonValue → HttpResponse
  | none => { status := 400, body := some msgBadJson, contentType := none }
  | some b =>
    if isNullValue b = true then internalServerError
    else
      let imgURL := getField b imgURLKey
      if ¬ truthyOpt imgURL = true then
        { status := 400, body := some msgMissingImgURL, contentType := none }
      else
        { status := 200
          body := rev (imgURL.getD JsonValue.null) 200 seedStay
          contentType := some pngContentType }

def handler (rev : JsonValue → ℤ → String → Option String)
    (method : String) (body : Option JsonValue) : HttpResponse :=
  if method ≠ postMethod then
    { status := 400, body := some msgOnlyPost, contentType := none }
  else handleBody rev body

lemma isNullValue_eq_false_of_ne {b : JsonValue} (h : b ≠ JsonValue.null) :
    isNullValue b = false := by
  cases b with
  | null => exact absurd rfl h
  | bool b => rfl
  | num q => rfl
  | str s => rfl
  | arr elems => rfl
  | obj fields => rfl

def revConst : JsonValue → ℤ → String → Option String := fun _ _ _ => none

/-- C10 counterexample: the JSON bodies `null` and `{}` agree on their `imgURL`
field (both lack it), yet the handler answers them differently — `null.imgURL`
throws a `TypeError` that surfaces as a 500 response, while `{}` gets the 400
"missing imgURL" response.  So responses are not determined by the `imgURL`
field alone. -/
theorem handler_null_body_counterexample :
    getField JsonValue.null imgURLKey = getField (JsonValue.obj []) imgURLKey ∧
    handler revConst postMethod (some JsonValue.null) ≠
      handler revConst postMethod (some (JsonValue.obj [])) :=
  ⟨rfl, by decide⟩

/-- C10 (amended): for every abstract `imgReverser` and every pair of valid JSON
POST bodies agreeing on their `imgURL` field, neither of which is the JSON value
`null` (on which `body.imgURL` throws), the handler produces identical responses;
and on every body with a truthy `imgURL` the reconstruction is invoked with
exactly tile side length `200` and seed `"stay"`, so no other field of the body
can influence the output. -/
theorem handler_depends_only_on_imgURL (rev : JsonValue → ℤ → String → Option String)
    (b1 b2 : JsonValue) (hn1 : b1 ≠ JsonValue.null) (hn2 : b2 ≠ JsonValue.null)
    (h : getField b1 imgURLKey = getField b2 imgURLKey) :
    handler rev postMethod (some b1) = handler rev postMethod (some b2) ∧
    (∀ b : JsonValue, truthyOpt (getField b imgURLKey) = true →
      handler rev postMethod (some b) =
        { status := 200
          body := rev ((getField b imgURLKey).getD JsonValue.null) 200 seedStay
          contentType := some pngContentType }) := by
  constructor
  · unfold handler
    rw [if_neg (by simp), if_neg (by simp)]
    simp only [handleBody]
    rw [isNullValue_eq_false_of_ne hn1, isNullValue_eq_false_of_ne hn2]
    simp only [Bool.false_eq_true, if_false]
    rw [h]
  · intro b hb
    have hbn : b ≠ JsonValue.null := by
      intro hc
      rw [hc] at hb
      exact Bool.noConfusion hb
    unfold handler
    rw [if_neg (by simp)]
    simp only [handleBody]
    rw [isNullValue_eq_false_of_ne hbn]
    simp only [Bool.false_eq_true, if_false]
    rw [if_neg (by rw [hb]; simp)]

def demoURL : String := "x"

def extraKey : String := "other"

def demoBody1 : JsonValue :=
  JsonValue.obj [(imgURLKey, JsonValue.str demoURL), (extraKey, JsonValue.num 1)]

def demoBody2 : JsonValue :=
  JsonValue.obj [(imgURLKey, JsonValue.str demoURL)]

theorem handler_depends_only_on_imgURL_witness :
    (demoBody1 ≠ JsonValue.null ∧ demoBody2 ≠ JsonValue.null ∧
      getField demoBody1 imgURLKey = getField demoBody2 imgURLKey) ∧
    handler revConst postMethod (some demoBody1) = handler revConst postMethod (some demoBody2) ∧
    handler revConst postMethod (some demoBody1) =
      { status := 200
        body := revConst (JsonValue.str demoURL) 200 seedStay
        contentType := some pngContentType } :=
  ⟨⟨fun hc => JsonValue.noConfusion hc, fun hc => JsonValue.noConfusion hc, rfl⟩,
    (handler_depends_only_on_imgURL revConst demoBody1 demoBody2
      (fun hc => JsonValue.noConfusion hc) (fun hc => JsonValue.noConfusion hc) rfl).1,
    (handler_depends_only_on_imgURL revConst demoBody1 demoBody2
      (fun hc => JsonValue.noConfusion hc) (fun hc => JsonValue.noConfusion hc) rfl).2
      demoBody1 rfl⟩

/-! ### C3 / C5 / C6: the grid layout

Proof-side descriptions of the grid: `nCols`/`nRows` are the column and row
counts `ceil(width / S)` and `ceil(height / S)` as naturals, and `tileRC` is the
tile at grid row `r`, column `c` in the closed form the spec states. -/

def nCols (W S : ℤ) : ℕ := (⌈(W : ℚ) / (S : ℚ)⌉).toNat

def nRows (H S : ℤ) : ℕ := (⌈(H : ℚ) / (S : ℚ)⌉).toNat

def widthAt (W S : ℤ) (c : ℕ) : ℤ := min S (W - (c : ℤ) * S)

def heightAt (H S : ℤ) (r : ℕ) : ℤ := min S (H - (r : ℤ) * S)

def tileRC (W H S : ℤ) (r c : ℕ) : Square :=
  { x := (c : ℤ) * S
    y := (r : ℤ) * S
    width := widthAt W S c
    height := heightAt H S r }

lemma ceil_div_pos {W S : ℤ} (hW : 0 < W) (hS : 0 < S) : 0 < ⌈(W : ℚ) / (S : ℚ)⌉ := by
  rw [Int.lt_ceil]
  push_cast
  exact div_pos (by exact_mod_cast hW) (by exact_mod_cast hS)

lemma nCols_pos {W S : ℤ} (hW : 0 < W) (hS : 0 < S) : 0 < nCols W S := by
  have := ceil_div_pos hW hS
  unfold nCols
  omega

lemma nRows_pos {H S : ℤ} (hH : 0 < H) (hS : 0 < S) : 0 < nRows H S := by
  have := ceil_div_pos hH hS
  unfold nRows
  omega

lemma totalSquares_toNat (W H S : ℤ) (hW : 0 < W) (hH : 0 < H) (hS : 0 < S) :
    (totalSquares W H S).toNat = nCols W S * nRows H S := by
  have h1 := ceil_div_pos hW hS
  have h2 := ceil_div_pos hH hS
  have key : totalSquares W H S = ((nCols W S * nRows H S : ℕ) : ℤ) := by
    unfold totalSquares nCols nRows
    push_cast [Int.toNat_of_nonneg h1.le, Int.toNat_of_nonneg h2.le]
    ring
  rw [key]
  exact Int.toNat_natCast _

lemma floor_natCast_div_toNat (i : ℕ) (m : ℤ) (hm : 0 < m) :
    ⌊(i : ℚ) / (m : ℚ)⌋ = ((i / m.toNat : ℕ) : ℤ) := by
  have hmn : ((m.toNat : ℕ) : ℤ) = m := Int.toNat_of_nonneg hm.le
  rw [show ((i : ℕ) : ℚ) = (((i : ℕ) : ℤ) : ℚ) by push_cast; ring]
  rw [show ((m : ℤ) : ℚ) = ((m.toNat : ℕ) : ℚ) by exact_mod_cast hmn.symm]
  rw [Rat.floor_intCast_div_natCast]
  rw [← hmn]
  exact (Int.ofNat_div _ _).symm

lemma clip_eq_min (x S W : ℤ) : S - (if x + S ≤ W then 0 else x + S - W) = min S (W - x) := by
  split_ifs with h <;> omega

lemma sub_div_mul_eq_mod (i n : ℕ) :
    (i : ℤ) - ((i / n : ℕ) : ℤ) * ((n : ℕ) : ℤ) = ((i % n : ℕ) : ℤ) := by
  have hdm : n * (i / n) + i % n = i := Nat.div_add_mod i n
  set q := i / n with hq
  set m := i % n with hm
  rw [← hdm]
  push_cast
  ring

lemma tileAt_eq_tileRC (W H S : ℤ) (hW : 0 < W) (hS : 0 < S) (i : ℕ) :
    tileAt W H S i = tileRC W H S (i / nCols W S) (i % nCols W S) := by
  have hcpos := ceil_div_pos hW hS
  have hspr : squaresPerRow W S = ((nCols W S : ℕ) : ℤ) :=
    (Int.toNat_of_nonneg hcpos.le).symm
  have hrow : ⌊(i : ℚ) / (squaresPerRow W S : ℚ)⌋ = ((i / nCols W S : ℕ) : ℤ) :=
    floor_natCast_div_toNat i (squaresPerRow W S) hcpos
  show Square.mk _ _ _ _ = _
  rw [hrow, hspr]
  unfold tileRC widthAt heightAt
  have hx : ((i : ℤ) - ((i / nCols W S : ℕ) : ℤ) * ((nCols W S : ℕ) : ℤ)) * S =
      ((i % nCols W S : ℕ) : ℤ) * S := by
    rw [sub_div_mul_eq_mod]
  rw [hx]
  rw [clip_eq_min, clip_eq_min]

lemma raster_index_lt {r c a b : ℕ} (hr : r < a) (hc : c < b) : r * b + c < a * b := by
  have h1 : (r + 1) * b ≤ a * b := Nat.mul_le_mul_right b hr
  have h2 : (r + 1) * b = r * b + b := by ring
  omega

lemma raster_index_div {r c n : ℕ} (hn : 0 < n) (hc : c < n) : (r * n + c) / n = r := by
  rw [Nat.mul_comm r n, Nat.mul_add_div hn, Nat.div_eq_of_lt hc]
  omega

lemma raster_index_mod {r c n : ℕ} (hc : c < n) : (r * n + c) % n = c := by
  rw [Nat.mul_comm r n, Nat.mul_add_mod, Nat.mod_eq_of_lt hc]

lemma range_mul_map_eq_flatMap {α : Type} (f : ℕ → α) :
    ∀ a b : ℕ, (List.range (a * b)).map f =
      (List.range a).flatMap (fun r => (List.range b).map (fun c => f (r * b + c))) := by
  intro a
  induction a with
  | zero => intro b; simp
  | succ a ih =>
    intro b
    rw [List.range_succ, List.flatMap_append, ← ih b]
    rw [show (a + 1) * b = a * b + b by ring, List.range_add, List.map_append]
    congr 1
    rw [List.map_map, List.flatMap_cons, List.flatMap_nil, List.append_nil]
    apply List.map_congr_left
    intro c _
    rfl

/-- The tile list is the row-major enumeration of the `nRows × nCols` grid of
spec-form tiles. -/
lemma tileList_eq_flatMap (W H S : ℤ) (hW : 0 < W) (hH : 0 < H) (hS : 0 < S) :
    tileList W H S = (List.range (nRows H S)).flatMap
      (fun r => (List.range (nCols W S)).map (fun c => tileRC W H S r c)) := by
  unfold tileList
  rw [totalSquares_toNat W H S hW hH hS, Nat.mul_comm]
  rw [range_mul_map_eq_flatMap (tileAt W H S) (nRows H S) (nCols W S)]
  apply List.flatMap_congr
  intro r _
  apply List.map_congr_left
  intro c hc
  have hc' : c < nCols W S := List.mem_range.mp hc
  have hn := nCols_pos hW hS
  rw [tileAt_eq_tileRC W H S hW hS]
  rw [raster_index_div hn hc', raster_index_mod hc']

lemma length_tileList (W H S : ℤ) (hW : 0 < W) (hH : 0 < H) (hS : 0 < S) :
    (tileList W H S).length = nRows H S * nCols W S := by
  unfold tileList
  rw [List.length_map, List.length_range, totalSquares_toNat W H S hW hH hS, Nat.mul_comm]

lemma getD_tileList (W H S : ℤ) (hW : 0 < W) (hH : 0 < H) (hS : 0 < S)
    {i : ℕ} (hi : i < nRows H S * nCols W S) :
    (tileList W H S).getD i default = tileAt W H S i := by
  have hlen : i < (tileList W H S).length := by
    rw [length_tileList W H S hW hH hS]
    exact hi
  rw [getD_eq_getElem _ _ _ hlen]
  unfold tileList
  rw [List.getElem_map]
  congr 1
  exact List.getElem_range _ _

lemma lookup_insertTile (gs : List ((ℤ × ℤ) × List Square)) (sq : Square) (k : ℤ × ℤ) :
    (insertTile gs sq).lookup k =
      if k = (sq.width, sq.height) then some (((gs.lookup k).getD []) ++ [sq])
      else gs.lookup k := by
  induction gs with
  | nil =>
    simp only [insertTile]
    by_cases h : k = (sq.width, sq.height)
    · have hb : (k == (sq.width, sq.height)) = true := beq_iff_eq.mpr h
      simp [List.lookup_cons, hb, h]
    · have hb : (k == (sq.width, sq.height)) = false := beq_eq_false_iff_ne.mpr h
      simp [List.lookup_cons, hb, h]
  | cons kv rest ih =>
    obtain ⟨k', bucket⟩ := kv
    simp only [insertTile]
    by_cases h1 : k' = (sq.width, sq.height)
    · rw [if_pos h1]
      by_cases h2 : k = k'
      · have hb : (k == k') = true := beq_iff_eq.mpr h2
        simp only [List.lookup_cons, hb]
        rw [if_pos (h2.trans h1)]
        rfl
      · have hb : (k == k') = false := beq_eq_false_iff_ne.mpr h2
        simp only [List.lookup_cons, hb]
        rw [if_neg (fun hc => h2 (hc.trans h1.symm))]
    · rw [if_neg h1]
      by_cases h2 : k = k'
      · have hb : (k == k') = true := beq_iff_eq.mpr h2
        simp only [List.lookup_cons, hb]
        rw [if_neg (fun hc => h1 (h2.symm.trans hc))]
      · have hb : (k == k') = false := beq_eq_false_iff_ne.mpr h2
        simp only [List.lookup_cons, hb]
        exact ih

lemma lookup_foldl_insertTile (k : ℤ × ℤ) :
    ∀ (l : List Square) (gs : List ((ℤ × ℤ) × List Square)),
      (((l.foldl insertTile gs).lookup k).getD []) =
        ((gs.lookup k).getD []) ++
          l.filter (fun sq => decide ((sq.width, sq.height) = k)) := by
  intro l
  induction l with
  | nil => intro gs; simp
  | cons sq l ih =>
    intro gs
    rw [List.foldl_cons, ih (insertTile gs sq)]
    rw [lookup_insertTile]
    by_cases h : k = (sq.width, sq.height)
    · rw [if_pos h]
      rw [List.filter_cons, if_pos (by simp [h.symm])]
      simp
    · rw [if_neg h]
      rw [List.filter_cons, if_neg (by simp; exact fun hc => h hc.symm)]

/-- The bucket stored under key `(w, h)` is exactly the visitation-ordered
sublist of tiles with that width and height. -/
lemma bucketOf_eq_filter (W H S w h : ℤ) :
    bucketOf W H S w h =
      (tileList W H S).filter (fun sq => decide ((sq.width, sq.height) = (w, h))) := by
  unfold bucketOf squareGroups
  rw [lookup_foldl_insertTile]
  rfl

/-- C3: For `W, H, S > 0` the partitioner produces the row-major tile list:
`nRows * nCols` tiles, the tile at raster position `r * nCols + c` being
`{x = c*S, y = r*S, width = min(S, W - x), height = min(S, H - y)}`, and the
buckets keyed by `(width, height)` are exactly the filter of the visitation
order by that key (so order is preserved within each bucket). -/
theorem partitioner_row_major_and_buckets (W H S : ℤ) (hW : 0 < W) (hH : 0 < H) (hS : 0 < S) :
    (tileList W H S).length = nRows H S * nCols W S ∧
    (∀ r c : ℕ, r < nRows H S → c < nCols W S →
      (tileList W H S).getD (r * nCols W S + c) default =
        { x := (c : ℤ) * S
          y := (r : ℤ) * S
          width := min S (W - (c : ℤ) * S)
          height := min S (H - (r : ℤ) * S) }) ∧
    (∀ w h : ℤ, bucketOf W H S w h =
      (tileList W H S).filter (fun sq => decide ((sq.width, sq.height) = (w, h)))) := by
  refine ⟨length_tileList W H S hW hH hS, ?_, fun w h => bucketOf_eq_filter W H S w h⟩
  intro r c hr hc
  have hi : r * nCols W S + c < nRows H S * nCols W S := raster_index_lt hr hc
  rw [getD_tileList W H S hW hH hS hi]
  rw [tileAt_eq_tileRC W H S hW hS]
  rw [raster_index_div (nCols_pos hW hS) hc, raster_index_mod hc]
  rfl

theorem partitioner_row_major_and_buckets_witness :
    ((0 : ℤ) < 400 ∧ (0 : ℤ) < 300 ∧ (0 : ℤ) < 200) ∧
    ((tileList 400 300 200).length = nRows 300 200 * nCols 400 200 ∧
     (∀ r c : ℕ, r < nRows 300 200 → c < nCols 400 200 →
       (tileList 400 300 200).getD (r * nCols 400 200 + c) default =
         { x := (c : ℤ) * 200
           y := (r : ℤ) * 200
           width := min 200 (400 - (c : ℤ) * 200)
           height := min 200 (300 - (r : ℤ) * 200) }) ∧
     (∀ w h : ℤ, bucketOf 400 300 200 w h =
       (tileList 400 300 200).filter (fun sq => decide ((sq.width, sq.height) = (w, h))))) :=
  ⟨⟨by norm_num, by norm_num, by norm_num⟩,
    partitioner_row_major_and_buckets 400 300 200 (by norm_num) (by norm_num) (by norm_num)⟩

/-- Membership of the pixel `(px, py)` in a square's rectangle. -/
def inRect (sq : Square) (px py : ℤ) : Prop :=
  sq.x ≤ px ∧ px < sq.x + sq.width ∧ sq.y ≤ py ∧ py < sq.y + sq.height

lemma inRect_tileRC_iff (W H S : ℤ) (r c : ℕ) (px py : ℤ) :
    inRect (tileRC W H S r c) px py ↔
      ((c : ℤ) * S ≤ px ∧ px < (c : ℤ) * S + S ∧ px < W ∧
       (r : ℤ) * S ≤ py ∧ py < (r : ℤ) * S + S ∧ py < H) := by
  unfold inRect tileRC widthAt heightAt
  simp only
  generalize (c : ℤ) * S = xc
  generalize (r : ℤ) * S = yr
  omega

lemma ediv_unique_of_bounds {S px : ℤ} (c : ℤ) (hS : 0 < S)
    (h1 : c * S ≤ px) (h2 : px < c * S + S) : px / S = c := by
  have hle : c ≤ px / S := (Int.le_ediv_iff_mul_le hS).mpr h1
  have hlt : px / S < c + 1 := by
    rw [Int.ediv_lt_iff_lt_mul hS]
    calc px < c * S + S := h2
    _ = (c + 1) * S := by ring
  omega

lemma ediv_mul_bounds (px : ℤ) {S : ℤ} (hS : 0 < S) :
    (px / S) * S ≤ px ∧ px < (px / S) * S + S := by
  have h := Int.ediv_add_emod px S
  have h0 : 0 ≤ px % S := Int.emod_nonneg px (by omega)
  have h1 : px % S < S := Int.emod_lt_of_pos px hS
  constructor
  · calc (px / S) * S = S * (px / S) := by ring
    _ ≤ S * (px / S) + px % S := by omega
    _ = px := h
  · calc px = S * (px / S) + px % S := h.symm
    _ < S * (px / S) + S := by omega
    _ = (px / S) * S + S := by ring

lemma floor_intCast_div_pos (px S : ℤ) (hS : 0 < S) :
    ⌊(px : ℚ) / (S : ℚ)⌋ = px / S := by
  have hmn : ((S.toNat : ℕ) : ℤ) = S := Int.toNat_of_nonneg hS.le
  rw [show ((S : ℤ) : ℚ) = ((S.toNat : ℕ) : ℚ) by exact_mod_cast hmn.symm]
  rw [Rat.floor_intCast_div_natCast]
  rw [hmn]

lemma ediv_lt_ceil {W S px : ℤ} (hS : 0 < S) (hpxW : px < W) :
    px / S < ⌈(W : ℚ) / (S : ℚ)⌉ := by
  rw [Int.lt_ceil]
  rw [← floor_intCast_div_pos px S hS]
  calc ((⌊(px : ℚ) / (S : ℚ)⌋ : ℤ) : ℚ) ≤ (px : ℚ) / (S : ℚ) := Int.floor_le _
  _ < (W : ℚ) / (S : ℚ) := by
      apply (div_lt_div_iff_of_pos_right (by exact_mod_cast hS)).mpr
      exact_mod_cast hpxW

/-- C5: For `W, H, S > 0`, the tile rectangles exactly cover the `W × H`
plane: every pixel `(px, py)` with `0 ≤ px < W` and `0 ≤ py < H` lies inside
exactly one tile of the partitioner's tile list. -/
theorem partitioner_tiles_exactly (W H S : ℤ) (hW : 0 < W) (hH : 0 < H) (hS : 0 < S)
    (px py : ℤ) (hpx0 : 0 ≤ px) (hpxW : px < W) (hpy0 : 0 ≤ py) (hpyH : py < H) :
    ∃! i : ℕ, i < (tileList W H S).length ∧
      inRect ((tileList W H S).getD i default) px py := by
  have hcpos := nCols_pos hW hS
  have hcx0 : 0 ≤ px / S := Int.ediv_nonneg hpx0 hS.le
  have hry0 : 0 ≤ py / S := Int.ediv_nonneg hpy0 hS.le
  have hc0cast : (((px / S).toNat : ℕ) : ℤ) = px / S := Int.toNat_of_nonneg hcx0
  have hr0cast : (((py / S).toNat : ℕ) : ℤ) = py / S := Int.toNat_of_nonneg hry0
  have hc0lt : (px / S).toNat < nCols W S := by
    have := ediv_lt_ceil hS hpxW
    unfold nCols
    omega
  have hr0lt : (py / S).toNat < nRows H S := by
    have := ediv_lt_ceil hS hpyH
    unfold nRows
    omega
  have hidx : (py / S).toNat * nCols W S + (px / S).toNat < nRows H S * nCols W S :=
    raster_index_lt hr0lt hc0lt
  refine ⟨(py / S).toNat * nCols W S + (px / S).toNat, ⟨?_, ?_⟩, ?_⟩
  · rw [length_tileList W H S hW hH hS]
    exact hidx
  · rw [getD_tileList W H S hW hH hS hidx]
    rw [tileAt_eq_tileRC W H S hW hS]
    rw [raster_index_div hcpos hc0lt, raster_index_mod hc0lt]
    rw [inRect_tileRC_iff]
    obtain ⟨ha, hb⟩ := ediv_mul_bounds px hS
    obtain ⟨hc, hd⟩ := ediv_mul_bounds py hS
    rw [hc0cast, hr0cast]
    exact ⟨ha, hb, hpxW, hc, hd, hpyH⟩
  · intro j hj
    obtain ⟨hjlt, hjrect⟩ := hj
    rw [length_tileList W H S hW hH hS] at hjlt
    rw [getD_tileList W H S hW hH hS hjlt] at hjrect
    rw [tileAt_eq_tileRC W H S hW hS] at hjrect
    rw [inRect_tileRC_iff] at hjrect
    obtain ⟨h1, h2, _, h4, h5, _⟩ := hjrect
    have hcol : px / S = ((j % nCols W S : ℕ) : ℤ) := ediv_unique_of_bounds _ hS h1 h2
    have hrow : py / S = ((j / nCols W S : ℕ) : ℤ) := ediv_unique_of_bounds _ hS h4 h5
    have hceq : (px / S).toNat = j % nCols W S := by omega
    have hreq : (py / S).toNat = j / nCols W S := by omega
    have hdm : nCols W S * (j / nCols W S) + j % nCols W S = j := Nat.div_add_mod j (nCols W S)
    rw [hceq, hreq, Nat.mul_comm]
    exact hdm.symm

theorem partitioner_tiles_exactly_witness :
    ((0 : ℤ) < 400 ∧ (0 : ℤ) < 300 ∧ (0 : ℤ) < 200 ∧
      (0 : ℤ) ≤ 250 ∧ (250 : ℤ) < 400 ∧ (0 : ℤ) ≤ 299 ∧ (299 : ℤ) < 300) ∧
    (∃! i : ℕ, i < (tileList 400 300 200).length ∧
      inRect ((tileList 400 300 200).getD i default) 250 299) :=
  ⟨⟨by norm_num, by norm_num, by norm_num, by norm_num, by norm_num, by norm_num, by norm_num⟩,
    partitioner_tiles_exactly 400 300 200 (by norm_num) (by norm_num) (by norm_num)
      250 299 (by norm_num) (by norm_num) (by norm_num) (by norm_num)⟩

/-! ### C6: group geometry consistency -/

lemma flatMap_if_filter {q : ℕ → Prop} [DecidablePred q] (f : ℕ → List Square) :
    ∀ l : List ℕ,
      l.flatMap (fun r => if q r then f r else []) =
        (l.filter (fun r => decide (q r))).flatMap f := by
  intro l
  induction l with
  | nil => rfl
  | cons a l ih =>
    by_cases hq : q a <;>
      simp [List.flatMap_cons, List.filter_cons, hq, ih]

/-- For positive dimensions, each bucket is a full rectangular sub-grid: the rows
whose clipped height is `h`, crossed with the columns whose clipped width is `w`,
in raster order. -/
lemma bucketOf_eq_product (W H S w h : ℤ) (hW : 0 < W) (hH : 0 < H) (hS : 0 < S) :
    bucketOf W H S w h =
      ((List.range (nRows H S)).filter (fun r => decide (heightAt H S r = h))).flatMap
        (fun r => ((List.range (nCols W S)).filter
            (fun c => decide (widthAt W S c = w))).map (fun c => tileRC W H S r c)) := by
  rw [bucketOf_eq_filter, tileList_eq_flatMap W H S hW hH hS]
  rw [List.filter_flatMap]
  rw [← flatMap_if_filter]
  apply List.flatMap_congr
  intro r _
  rw [List.filter_map]
  by_cases hr : heightAt H S r = h
  · rw [if_pos hr]
    congr 1
    apply List.filter_congr
    intro c _
    show decide (((tileRC W H S r c).width, (tileRC W H S r c).height) = (w, h)) = _
    show decide ((widthAt W S c, heightAt H S r) = (w, h)) = decide (widthAt W S c = w)
    simp [Prod.ext_iff, hr]
  · rw [if_neg hr]
    rw [List.filter_eq_nil_iff.mpr ?_]
    · rfl
    · intro c _
      show ¬ decide ((widthAt W S c, heightAt H S r) = (w, h)) = true
      simp [Prod.ext_iff, hr]

lemma length_product (W H S : ℤ) (RH CW : List ℕ) :
    (RH.flatMap (fun r => CW.map (tileRC W H S r))).length = RH.length * CW.length := by
  induction RH with
  | nil => simp
  | cons r rs ih =>
    rw [List.flatMap_cons, List.length_append, List.length_map, ih, List.length_cons]
    ring

lemma getColsInGroup_product (W H S : ℤ) (hS : 0 < S) (RH CW : List ℕ)
    (hnd : RH.Nodup) (hRHne : RH ≠ []) (hCWne : CW ≠ []) :
    getColsInGroup (RH.flatMap (fun r => CW.map (tileRC W H S r))) = CW.length := by
  obtain ⟨r0, rs, rfl⟩ := List.exists_cons_of_ne_nil hRHne
  obtain ⟨c0, cs, rfl⟩ := List.exists_cons_of_ne_nil hCWne
  rw [List.flatMap_cons]
  unfold getColsInGroup
  have hhead : (((c0 :: cs).map (tileRC W H S r0) ++
      rs.flatMap (fun r => (c0 :: cs).map (tileRC W H S r))).getD 0 default) =
      tileRC W H S r0 c0 := by
    rw [List.getD_append _ _ _ 0 (by simp)]
    rfl
  rw [hhead]
  by_cases hlen : ((c0 :: cs).map (tileRC W H S r0) ++
      rs.flatMap (fun r => (c0 :: cs).map (tileRC W H S r))).length = 1
  · rw [if_pos hlen]
    rw [List.length_append, List.length_map, List.length_cons] at hlen
    have : cs.length = 0 := by omega
    rw [List.length_cons, this]
  · rw [if_neg hlen]
    have hfail : ∀ sq ∈ (c0 :: cs).map (tileRC W H S r0),
        (sq.y != (tileRC W H S r0 c0).y) = false := by
      intro sq hsq
      obtain ⟨c, _, rfl⟩ := List.mem_map.mp hsq
      show ((tileRC W H S r0 c).y != (tileRC W H S r0 c0).y) = false
      have hy : (tileRC W H S r0 c).y = (tileRC W H S r0 c0).y := rfl
      simp [hy]
    rw [List.findIdx_append]
    rw [List.findIdx_eq_length.mpr hfail]
    rw [if_neg (lt_irrefl _)]
    cases rs with
    | nil =>
      rw [List.flatMap_nil]
      rw [show List.findIdx (fun sq : Square => sq.y != (tileRC W H S r0 c0).y) [] = 0 from rfl]
      rw [List.length_map]
      omega
    | cons r1 rs' =>
      have hr1ne : r1 ≠ r0 := by
        intro hcon
        rw [List.nodup_cons] at hnd
        exact hnd.1 (hcon ▸ List.mem_cons_self r1 rs')
      rw [List.flatMap_cons, List.map_cons, List.cons_append]
      rw [List.findIdx_cons]
      have hptrue : ((tileRC W H S r1 c0).y != (tileRC W H S r0 c0).y) = true := by
        apply bne_iff_ne.mpr
        show (r1 : ℤ) * S ≠ (r0 : ℤ) * S
        intro hcon
        have : (r1 : ℤ) = (r0 : ℤ) := mul_right_cancel₀ (by omega) hcon
        exact hr1ne (by exact_mod_cast this)
      rw [hptrue]
      show 0 + ((c0 :: cs).map (tileRC W H S r0)).length = _
      rw [List.length_map]
      omega

/-- C6: For every group the partitioner produces from positive `W, H, S`, the
derived geometry satisfies `rows * cols = slices`, where `slices` is the group's
tile count and `cols` is the run-length of tiles sharing the first tile's `y`;
and `rows = slices / cols` is an exact (natural) number. -/
theorem group_geometry_consistent (W H S : ℤ) (hW : 0 < W) (hH : 0 < H) (hS : 0 < S)
    (w h : ℤ) (hne : bucketOf W H S w h ≠ []) :
    (getGroup (bucketOf W H S w h)).rows * ((getGroup (bucketOf W H S w h)).cols : ℚ) =
      ((getGroup (bucketOf W H S w h)).slices : ℚ) ∧
    ∃ k : ℕ, (getGroup (bucketOf W H S w h)).rows = (k : ℚ) := by
  rw [bucketOf_eq_product W H S w h hW hH hS] at hne ⊢
  set RH := (List.range (nRows H S)).filter (fun r => decide (heightAt H S r = h)) with hRH
  set CW := (List.range (nCols W S)).filter (fun c => decide (widthAt W S c = w)) with hCW
  have hlenG : (RH.flatMap (fun r => CW.map (tileRC W H S r))).length = RH.length * CW.length :=
    length_product W H S RH CW
  have hGne : (RH.flatMap (fun r => CW.map (tileRC W H S r))).length ≠ 0 := by
    intro hc
    exact hne (List.length_eq_zero.mp hc)
  have hRHne : RH ≠ [] := by
    intro hc
    apply hGne
    rw [hlenG, hc]
    simp
  have hCWne : CW ≠ [] := by
    intro hc
    apply hGne
    rw [hlenG, hc]
    simp
  have hCWlen : CW.length ≠ 0 := fun hc => hCWne (List.length_eq_zero.mp hc)
  have hnd : RH.Nodup := (List.nodup_range (nRows H S)).filter _
  have hcols : getColsInGroup (RH.flatMap (fun r => CW.map (tileRC W H S r))) = CW.length :=
    getColsInGroup_product W H S hS RH CW hnd hRHne hCWne
  unfold getGroup
  simp only [hcols, hlenG]
  constructor
  · rw [div_mul_cancel₀]
    exact_mod_cast hCWlen
  · refine ⟨RH.length, ?_⟩
    push_cast
    rw [mul_div_assoc, div_self (by exact_mod_cast hCWlen), mul_one]

lemma nCols_400_200 : nCols 400 200 = 2 := by
  unfold nCols
  rw [show (⌈((400 : ℤ) : ℚ) / ((200 : ℤ) : ℚ)⌉ : ℤ) = 2 by rw [Int.ceil_eq_iff]; norm_num]
  rfl

lemma nRows_300_200 : nRows 300 200 = 2 := by
  unfold nRows
  rw [show (⌈((300 : ℤ) : ℚ) / ((200 : ℤ) : ℚ)⌉ : ℤ) = 2 by rw [Int.ceil_eq_iff]; norm_num]
  rfl

lemma bucket_400_300_200_200_100_ne : bucketOf 400 300 200 200 100 ≠ [] := by
  rw [bucketOf_eq_product 400 300 200 200 100 (by norm_num) (by norm_num) (by norm_num)]
  rw [nRows_300_200, nCols_400_200]
  decide

theorem group_geometry_consistent_witness :
    ((0 : ℤ) < 400 ∧ (0 : ℤ) < 300 ∧ (0 : ℤ) < 200 ∧ bucketOf 400 300 200 200 100 ≠ []) ∧
    ((getGroup (bucketOf 400 300 200 200 100)).rows *
        ((getGroup (bucketOf 400 300 200 200 100)).cols : ℚ) =
      ((getGroup (bucketOf 400 300 200 200 100)).slices : ℚ) ∧
     ∃ k : ℕ, (getGroup (bucketOf 400 300 200 200 100)).rows = (k : ℚ)) :=
  ⟨⟨by norm_num, by norm_num, by norm_num, bucket_400_300_200_200_100_ne⟩,
    group_geometry_consistent 400 300 200 (by norm_num) (by norm_num) (by norm_num)
      200 100 bucket_400_300_200_200_100_ne⟩

/-! ### C4: the per-tile copy computation -/

/-- Every position `idx < N` of `permute(N, seed)` holds `some` value drawn from
`[0, N)` (needed because `imgReverser` reads `deshuffled[index]` as a number). -/
lemma permute_getD_eq_some (g : ℕ → ℚ) (N : ℕ) (hg : ∀ j, 0 ≤ g j ∧ g j < 1)
    (idx : ℕ) (hidx : idx < N) :
    ∃ slot : ℕ, slot < N ∧ (permute g N).getD idx none = some ((slot : ℕ) : ℤ) := by
  obtain ⟨_, _, h3, _⟩ := unShuffleGo_invariant g (createRange 0 (N : ℤ)) hg
    (createRange 0 (N : ℤ)).length 0
    (List.range (createRange 0 (N : ℤ)).length)
    (List.replicate (createRange 0 (N : ℤ)).length none)
    (List.nodup_range _) (List.length_range _)
    (fun x hx => by
      rw [List.length_replicate]
      exact List.mem_range.mp hx)
    (fun x hx => by
      rw [List.getElem?_replicate, if_pos (List.mem_range.mp hx)])
  have hidx' : idx ∈ List.range (createRange 0 (N : ℤ)).length := by
    rw [length_createRange]
    exact List.mem_range.mpr hidx
  obtain ⟨j, hj, hval⟩ := h3 idx hidx'
  rw [length_createRange] at hj
  refine ⟨j, hj, ?_⟩
  rw [permute, unShuffle]
  rw [List.getD_eq_getElem?_getD]
  rw [hval]
  rw [Nat.zero_add, getD_createRange N j hj]
  rfl

/-- C4: For every tile at raster position `idx` within its group, the
reassembler computes `slot = permutation[idx]`, `srcRow = floor(slot / cols)`,
`srcCol = slot - srcRow * cols`, and issues a copy of the tile's own
`width × height` block from source origin
`(geometry.x + srcCol * width, geometry.y + srcRow * height)` to the tile's
destination `(tile.x, tile.y)`. -/
theorem reassembler_tile_copy (g : ℕ → ℚ) (grp : List Square) (idx : ℕ)
    (hg : ∀ j, 0 ≤ g j ∧ g j < 1) (hidx : idx < grp.length) :
    ∃ slot : ℤ, 0 ≤ slot ∧ slot < (grp.length : ℤ) ∧
      (unShuffle g (createRange 0 (grp.length : ℤ))).getD idx none = some slot ∧
      (copyOpsForGroup g grp).getD idx default =
        { sx := (getGroup grp).x +
            (slot - ⌊(slot : ℚ) / ((getGroup grp).cols : ℚ)⌋ * ((getGroup grp).cols : ℤ)) *
              (grp.getD idx default).width
          sy := (getGroup grp).y +
            ⌊(slot : ℚ) / ((getGroup grp).cols : ℚ)⌋ * (grp.getD idx default).height
          sW := (grp.getD idx default).width
          sH := (grp.getD idx default).height
          dx := (grp.getD idx default).x
          dy := (grp.getD idx default).y
          dW := (grp.getD idx default).width
          dH := (grp.getD idx default).height } := by
  obtain ⟨slotN, hslotlt, hsome⟩ := permute_getD_eq_some g grp.length hg idx hidx
  refine ⟨(slotN : ℕ), by positivity, by exact_mod_cast hslotlt, hsome, ?_⟩
  unfold copyOpsForGroup
  have hlen2 : idx < grp.enum.length := by
    rw [List.enum_length]
    exact hidx
  rw [List.getD_eq_getElem?_getD]
  rw [List.getElem?_eq_getElem (by simpa using hlen2)]
  rw [List.getElem_map]
  rw [List.getElem_enum]
  simp only
  rw [show (unShuffle g (createRange 0 (grp.length : ℤ))).getD idx none =
    some ((slotN : ℕ) : ℤ) from hsome]
  rw [getD_eq_getElem grp idx default hidx]
  rfl

def demoGroup : List Square :=
  [{ x := 0, y := 0, width := 2, height := 2 }, { x := 2, y := 0, width := 2, height := 2 }]

theorem reassembler_tile_copy_witness :
    ((∀ j, 0 ≤ gHalf j ∧ gHalf j < 1) ∧ 0 < demoGroup.length) ∧
    (∃ slot : ℤ, 0 ≤ slot ∧ slot < (demoGroup.length : ℤ) ∧
      (unShuffle gHalf (createRange 0 (demoGroup.length : ℤ))).getD 0 none = some slot ∧
      (copyOpsForGroup gHalf demoGroup).getD 0 default =
        { sx := (getGroup demoGroup).x +
            (slot - ⌊(slot : ℚ) / ((getGroup demoGroup).cols : ℚ)⌋ *
                ((getGroup demoGroup).cols : ℤ)) * (demoGroup.getD 0 default).width
          sy := (getGroup demoGroup).y +
            ⌊(slot : ℚ) / ((getGroup demoGroup).cols : ℚ)⌋ * (demoGroup.getD 0 default).height
          sW := (demoGroup.getD 0 default).width
          sH := (demoGroup.getD 0 default).height
          dx := (demoGroup.getD 0 default).x
          dy := (demoGroup.getD 0 default).y
          dW := (demoGroup.getD 0 default).width
          dH := (demoGroup.getD 0 default).height }) :=
  ⟨⟨gHalf_valid, by norm_num [demoGroup]⟩,
    reassembler_tile_copy gHalf demoGroup 0 gHalf_valid (by norm_num [demoGroup])⟩

end Unshuf
